import Mathlib

set_option maxHeartbeats 1000000

/-!
Shallow embedding of the reconciliation and batching core of the
seller-apis repository (src/seller.py and src/market.py), together with
theorems settling the frozen claims about it.

Modelling conventions:
* Python strings are Lean `String`s; where the source manipulates a string
  character by character (regex digit filtering, `str.split`) the embedding
  works on `String.toList`.
* Python `int(s)` raises `ValueError` on malformed input; it is embedded as
  `pyInt : String → Option Int`, `none` standing for the raised exception.
  Fallible functions built on it return `Option`; `none` propagates like an
  uncaught exception up to the embedded top-level `main`, the only place
  that turns it into a logged-error outcome (mirroring the `try/except`
  blocks of `seller.main` / `market.main`).
* The destructive mutation of the caller-supplied `offer_ids` list
  (`offer_ids.remove(...)` in the reconcilers) is embedded by threading the
  list through the loop and returning its final value alongside the result,
  so frame effects are visible in the types.
* The wall-clock timestamp taken in `market.create_stocks` is passed in as
  an explicit `date` argument.
-/

/-- One record of the external stock feed (a spreadsheet row as read by
`download_stock`).  The fields are exactly the columns the source reads:
`code` is column "Код", `quantity` is column "Количество", `price` is
column "Цена".  The display-name column is never read downstream and is
omitted.  The source wraps the code and quantity cells in `str(...)`;
the embedding takes them as strings to begin with. -/
structure FeedRow where
  code : String
  quantity : String
  price : String
  deriving DecidableEq, Repr

/-- Python `str.split(sep)` for a single-character separator, on the
character list of the string.  `[].split` of an empty string is `[""]`,
exactly as in Python. -/
def pySplitChar (sep : Char) : List Char → List (List Char)
  | [] => [[]]
  | c :: cs =>
    let rest := pySplitChar sep cs
    if c = sep then [] :: rest
    else
      match rest with
      | [] => [[c]]
      | h :: t => (c :: h) :: t

/-- `price_conversion` (src/seller.py lines 271-287):
`re.sub("[^0-9]", "", price.split(".")[0])` — take the part of the raw
price string before the first `.` (Python `split` always returns a
non-empty list, so the `[0]` index never fails and is embedded as
`headD []`), then delete every character that is not an ASCII decimal
digit (`Char.isDigit` is exactly the regex class `[0-9]`). -/
def price_conversion (price : String) : String :=
  String.mk (((pySplitChar '.' price.toList).headD []).filter Char.isDigit)

/-- Python `int : str → int` on base-10 literals, embedded as the partial
function it is: an optional sign followed by a non-empty run of ASCII
digits parses to its value, anything else raises `ValueError` (`none`).
(Python additionally strips surrounding whitespace and accepts `_` digit
grouping and non-ASCII decimal digits; no input in this development uses
those, so they are not modelled.) -/
def pyIntDigits (l : List Char) : Option Nat :=
  if l ≠ [] ∧ l.all Char.isDigit then
    some (l.foldl (fun a c => 10 * a + (c.toNat - 48)) 0)
  else none

def pyInt (s : String) : Option Int :=
  match s.toList with
  | '-' :: rest => (pyIntDigits rest).map (fun n => -(n : Int))
  | '+' :: rest => (pyIntDigits rest).map (fun n => (n : Int))
  | l => (pyIntDigits l).map (fun n => (n : Int))

/-- The quantity rule shared by `seller.create_stocks` (lines 221-227) and
`market.create_stocks` (lines 252-258): raw count `">10"` gives 100, raw
count `"1"` gives 0, any other raw count is `int(...)`-parsed (which can
raise, hence `Option`). -/
def stockOfCount (count : String) : Option Int :=
  if count = ">10" then some 100
  else if count = "1" then some 0
  else pyInt count

/-- `divide` (src/seller.py lines 290-310): the generator
`for i in range(0, len(lst), n): yield lst[i : i + n]`, embedded as the
list of chunks it yields.  For `n = 0` the Python `range` raises
`ValueError`; every call site uses a positive literal, and the embedding
returns `[]` in that unused case. -/
def divide {α : Type} : List α → Nat → List (List α)
  | _, 0 => []
  | [], _ + 1 => []
  | x :: xs, n + 1 => (x :: xs).take (n + 1) :: divide ((x :: xs).drop (n + 1)) (n + 1)
termination_by l _ => l.length
decreasing_by
  simp only [List.length_drop, List.length_cons]
  omega

namespace Seller

/-- A stock record built by `seller.create_stocks`:
`{"offer_id": ..., "stock": ...}`. -/
structure StockRecord where
  offer_id : String
  stock : Int
  deriving DecidableEq, Repr

/-- A price record built by `seller.create_prices` (lines 260-266); the
four metadata fields are fixed strings in the source. -/
structure PriceRecord where
  auto_action_enabled : String
  currency_code : String
  offer_id : String
  old_price : String
  price : String
  deriving DecidableEq, Repr

/-- The `for watch in watch_remnants` loop of `seller.create_stocks`
(src/seller.py lines 218-229).  The mutable locals `stocks` (records
appended so far) and `offer_ids` (the caller's list, shrunk by
`offer_ids.remove(...)`, i.e. `List.erase`, which drops the first
occurrence) are threaded through; the returned pair is their final value.
`none` is the `ValueError` of `int(...)` escaping the loop. -/
def create_stocks_loop : List FeedRow → List String →
    Option (List StockRecord × List String)
  | [], offer_ids => some ([], offer_ids)
  | watch :: rest, offer_ids =>
    if watch.code ∈ offer_ids then
      match stockOfCount watch.quantity with
      | none => none
      | some stock =>
        (create_stocks_loop rest (offer_ids.erase watch.code)).map
          (fun p => (⟨watch.code, stock⟩ :: p.1, p.2))
    else
      create_stocks_loop rest offer_ids

/-- `seller.create_stocks` (src/seller.py lines 196-232): run the feed
loop, then append a zero-stock record for every offer id left in the
(now mutated) `offer_ids` list, in its order.  Returns the result list
together with the final value of the caller's `offer_ids` list. -/
def create_stocks (watch_remnants : List FeedRow) (offer_ids : List String) :
    Option (List StockRecord × List String) :=
  (create_stocks_loop watch_remnants offer_ids).map
    (fun p => (p.1 ++ p.2.map (fun offer_id => ⟨offer_id, 0⟩), p.2))

/-- The `for watch in watch_remnants` loop of `seller.create_prices`
(src/seller.py lines 257-268).  The loop reads `offer_ids` but never
writes it; the threaded list is returned so the frame effect is a
theorem, not a convention. -/
def create_prices_loop : List FeedRow → List String →
    List PriceRecord × List String
  | [], offer_ids => ([], offer_ids)
  | watch :: rest, offer_ids =>
    let r := create_prices_loop rest offer_ids
    if watch.code ∈ offer_ids then
      (⟨"UNKNOWN", "RUB", watch.code, "0", price_conversion watch.price⟩ :: r.1,
       r.2)
    else r

/-- `seller.create_prices` (src/seller.py lines 235-268). -/
def create_prices (watch_remnants : List FeedRow) (offer_ids : List String) :
    List PriceRecord × List String :=
  create_prices_loop watch_remnants offer_ids

/-- Outcome of one run of `seller.main` (src/seller.py lines 383-403): the
whole pipeline sits in one `try` block whose `except` clauses print a
message; an exception anywhere inside therefore ends the run as a logged
error, and nothing between `create_stocks` and the upload loops catches
anything. -/
inductive RunOutcome where
  | ok (stockBatches : List (List StockRecord))
       (priceBatches : List (List PriceRecord))
  | loggedError
  deriving DecidableEq, Repr

/-- The pure core of `seller.main` (src/seller.py lines 388-397), with the
fetched catalog and downloaded feed as inputs: build stocks from the
caller-level `offer_ids` list (which `create_stocks` mutates in place —
here: which is replaced by the returned final list), batch them by 100,
then build prices FROM THE SAME, NOW MUTATED, `offer_ids` LIST and batch
them by 900. -/
def main_core (watch_remnants : List FeedRow) (offer_ids : List String) :
    Option (List (List StockRecord) × List (List PriceRecord)) :=
  match create_stocks watch_remnants offer_ids with
  | none => none
  | some (stocks, offer_ids1) =>
    let stockBatches := divide stocks 100
    let prices := (create_prices watch_remnants offer_ids1).1
    some (stockBatches, divide prices 900)

/-- `seller.main` with its top-level `try/except` (lines 387-403): an
exception from the pipeline is caught only here and becomes a logged
message. -/
def main_run (watch_remnants : List FeedRow) (offer_ids : List String) :
    RunOutcome :=
  match main_core watch_remnants offer_ids with
  | none => .loggedError
  | some (sb, pb) => .ok sb pb

/-- The batching step of `seller.upload_stocks` (line 377):
`divide(stocks, 100)`. -/
def upload_stocks_batches (watch_remnants : List FeedRow)
    (offer_ids : List String) : Option (List (List StockRecord)) :=
  (create_stocks watch_remnants offer_ids).map (fun p => divide p.1 100)

/-- The batching step of `seller.upload_prices` (line 342):
`divide(prices, 1000)`. -/
def upload_prices_batches (watch_remnants : List FeedRow)
    (offer_ids : List String) : List (List PriceRecord) :=
  divide (create_prices watch_remnants offer_ids).1 1000

end Seller

namespace Market

/-- One entry of the `items` list of a Yandex stock record
(src/market.py lines 263-269): `{"count": ..., "type": "FIT",
"updatedAt": date}`. -/
structure StockItem where
  count : Int
  type : String
  updatedAt : String
  deriving DecidableEq, Repr

/-- A stock record built by `market.create_stocks` (lines 259-271). -/
structure StockRecord where
  sku : String
  warehouseId : String
  items : List StockItem
  deriving DecidableEq, Repr

/-- The nested `price` object of a Yandex price record
(src/market.py lines 317-322). -/
structure PriceValue where
  value : Int
  currencyId : String
  deriving DecidableEq, Repr

/-- A price record built by `market.create_prices` (lines 314-325). -/
structure PriceRecord where
  id : String
  price : PriceValue
  deriving DecidableEq, Repr

/-- The `for watch in watch_remnants` loop of `market.create_stocks`
(src/market.py lines 250-272): same matching and quantity rule as the
seller loop, different record shape.  `date` is the
`datetime.utcnow()`-derived string computed once before the loop
(line 249), passed in explicitly. -/
def create_stocks_loop (warehouse_id date : String) :
    List FeedRow → List String → Option (List StockRecord × List String)
  | [], offer_ids => some ([], offer_ids)
  | watch :: rest, offer_ids =>
    if watch.code ∈ offer_ids then
      match stockOfCount watch.quantity with
      | none => none
      | some stock =>
        (create_stocks_loop warehouse_id date rest (offer_ids.erase watch.code)).map
          (fun p => (⟨watch.code, warehouse_id, [⟨stock, "FIT", date⟩]⟩ :: p.1, p.2))
    else
      create_stocks_loop warehouse_id date rest offer_ids

/-- `market.create_stocks` (src/market.py lines 223-287): feed loop, then
a zero-count record for every offer id left in the mutated list. -/
def create_stocks (watch_remnants : List FeedRow) (offer_ids : List String)
    (warehouse_id date : String) : Option (List StockRecord × List String) :=
  (create_stocks_loop warehouse_id date watch_remnants offer_ids).map
    (fun p => (p.1 ++ p.2.map (fun offer_id => ⟨offer_id, warehouse_id, [⟨0, "FIT", date⟩]⟩), p.2))

/-- The `for watch in watch_remnants` loop of `market.create_prices`
(src/market.py lines 312-326).  Unlike the seller variant the price is
`int(price_conversion(...))`: the `int(...)` can raise (e.g. when the
parsed digit string is empty), hence `Option`.  `offer_ids` is read,
never written, and threaded back out. -/
def create_prices_loop : List FeedRow → List String →
    Option (List PriceRecord × List String)
  | [], offer_ids => some ([], offer_ids)
  | watch :: rest, offer_ids =>
    if watch.code ∈ offer_ids then
      match pyInt (price_conversion watch.price) with
      | none => none
      | some v =>
        (create_prices_loop rest offer_ids).map
          (fun p => (⟨watch.code, ⟨v, "RUR"⟩⟩ :: p.1, p.2))
    else
      create_prices_loop rest offer_ids

/-- `market.create_prices` (src/market.py lines 290-327). -/
def create_prices (watch_remnants : List FeedRow) (offer_ids : List String) :
    Option (List PriceRecord × List String) :=
  create_prices_loop watch_remnants offer_ids

/-- The batching step of `market.upload_stocks` (line 415) and of both
stock-upload blocks of `market.main` (lines 437, 446):
`divide(stocks, 2000)`. -/
def upload_stocks_batches (watch_remnants : List FeedRow)
    (offer_ids : List String) (warehouse_id date : String) :
    Option (List (List StockRecord)) :=
  (create_stocks watch_remnants offer_ids warehouse_id date).map
    (fun p => divide p.1 2000)

/-- The batching step of `market.upload_prices` (line 357):
`divide(prices, 500)`. -/
def upload_prices_batches (watch_remnants : List FeedRow)
    (offer_ids : List String) : Option (List (List PriceRecord)) :=
  (create_prices watch_remnants offer_ids).map (fun p => divide p.1 500)

/-- An HTTP request `market.main` can issue: a stock batch PUT
(`update_stocks`) or a price batch POST (`update_price`), tagged with the
campaign it goes to. -/
inductive Request where
  | stockUpdate (campaignId : String) (batch : List StockRecord)
  | priceUpdate (campaignId : String) (batch : List PriceRecord)
  deriving DecidableEq, Repr

def Request.isPriceUpdate : Request → Bool
  | .priceUpdate _ _ => true
  | .stockUpdate _ _ => false

/-- The request trace of `market.main` (src/market.py lines 432-449), with
the two fetched catalogs and the feed as inputs.  For each of the FBS and
DBS blocks the source builds stocks, submits them in chunks of 2000, and
then evaluates `upload_prices(watch_remnants, campaign_id, market_token)`
WITHOUT `await` (lines 440 and 449): `upload_prices` is an `async def`,
so that expression merely constructs a coroutine object which is never
scheduled or iterated — its body (`create_prices` and the `update_price`
POSTs) never executes.  The trace therefore contains the stock-update
requests and nothing else. -/
def main_requests (watch_remnants : List FeedRow)
    (fbsOfferIds dbsOfferIds : List String)
    (campaignFbsId campaignDbsId warehouseFbsId warehouseDbsId date : String) :
    Option (List Request) :=
  match create_stocks watch_remnants fbsOfferIds warehouseFbsId date with
  | none => none
  | some (stocksFbs, _) =>
    let reqsFbs := (divide stocksFbs 2000).map (Request.stockUpdate campaignFbsId)
    match create_stocks watch_remnants dbsOfferIds warehouseDbsId date with
    | none => none
    | some (stocksDbs, _) =>
      let reqsDbs := (divide stocksDbs 2000).map (Request.stockUpdate campaignDbsId)
      some (reqsFbs ++ reqsDbs)

end Market

/-!
Spec-side definitions: restatements in the claims' own vocabulary
("remaining catalog", "later duplicate rows ignored", "ids matched by no
feed row", chunk lengths), to be related to the source-derived functions
above by the claim theorems.
-/

/-- Following the claims' wording "later duplicate rows for the same id
are ignored": keep, in order, only the first feed row bearing each offer
code. -/
def dedupByCode : List FeedRow → List FeedRow
  | [] => []
  | r :: rest => r :: dedupByCode (rest.filter (fun x => x.code != r.code))
termination_by l => l.length
decreasing_by
  have := List.length_filter_le (fun x => x.code != r.code) rest
  simp only [List.length_cons]
  omega

/-- The feed rows that get a feed-derived stock record, per the claims:
rows whose code is in the catalog, first row per code only. -/
def matchedRows (feed : List FeedRow) (cat : List String) : List FeedRow :=
  dedupByCode (feed.filter (fun r => decide (r.code ∈ cat)))

/-- The catalog offer ids matched by no feed row, in original catalog
order — the ids the claims say get the quantity-0 records and stay in the
mutated `offer_ids` list. -/
def unmatchedIds (feed : List FeedRow) (cat : List String) : List String :=
  cat.filter (fun id => feed.all (fun r => r.code != id))

namespace Seller

/-- Following the claims' wording of the quantity rule: one stock record
per (already deduplicated) matched row, in order, with the computed
quantity; `none` when some quantity fails to parse. -/
def recordsOfRows : List FeedRow → Option (List StockRecord)
  | [] => some []
  | r :: rest =>
    match stockOfCount r.quantity, recordsOfRows rest with
    | some q, some recs => some (⟨r.code, q⟩ :: recs)
    | _, _ => none

end Seller

/-- The chunk-length profile the Batcher contract describes: a list of
length `len` cut into pieces of size `n`. -/
def chunkLens : Nat → Nat → List Nat
  | _, 0 => []
  | 0, _ + 1 => []
  | len + 1, n + 1 => min (n + 1) (len + 1) :: chunkLens (len + 1 - (n + 1)) (n + 1)
termination_by len _ => len
decreasing_by omega

/-- The apostrophe (U+0027) used as a thousands separator in the feed's
price strings. -/
def apos : Char := Char.ofNat 39

/-- The raw feed price string literally written `5'990.00 руб.` -/
def rubPrice5990 : String :=
  String.mk ['5', apos, '9', '9', '0', '.', '0', '0', ' ', 'р', 'у', 'б', '.']

/-- The raw feed price string literally written `10'990.00 руб.` -/
def rubPrice10990 : String :=
  String.mk ['1', '0', apos, '9', '9', '0', '.', '0', '0', ' ', 'р', 'у', 'б', '.']

/-- The record-shape translation between the two create_stocks variants:
a seller record, wrapped in the Yandex warehouse/items envelope. -/
def Seller.StockRecord.toMarket (wh date : String) (r : Seller.StockRecord) :
    Market.StockRecord :=
  ⟨r.offer_id, wh, [⟨r.stock, "FIT", date⟩]⟩

-- sanity checks (concrete evaluations of the embedding)
example : price_conversion (String.mk
    ['5', Char.ofNat 39, '9', '9', '0', '.', '0', '0', ' ', 'р']) = "5990" := by
  decide

example : pyInt "5" = some 5 := by decide
example : pyInt "xx" = none := by decide
example : stockOfCount ">10" = some 100 := by decide
example : stockOfCount "1" = some 0 := by decide

example :
    Seller.create_stocks
      [⟨"123", "5", "p"⟩, ⟨"987", "10", "p"⟩] ["123", "789"] =
    some ([⟨"123", 5⟩, ⟨"789", 0⟩], ["789"]) := by decide

example : divide [1, 2, 3, 4, 5] 2 = [[1, 2], [3, 4], [5]] := by
  simp [divide]

/-!
### Price Parser lemmas
-/

theorem pySplitChar_ne_nil (sep : Char) (l : List Char) : pySplitChar sep l ≠ [] := by
  induction l with
  | nil => simp [pySplitChar]
  | cons c cs ih =>
    simp only [pySplitChar]
    split
    · simp
    · cases h : pySplitChar sep cs <;> simp

/-- The part of the string before the first separator, as the claims put
it, is the head of the Python split. -/
theorem pySplitChar_headD (sep : Char) (l : List Char) :
    (pySplitChar sep l).headD [] = l.takeWhile (fun c => c != sep) := by
  induction l with
  | nil => simp [pySplitChar]
  | cons c cs ih =>
    by_cases h : c = sep
    · simp [pySplitChar, h]
    · simp only [pySplitChar, if_neg h]
      cases hr : pySplitChar sep cs with
      | nil => exact absurd hr (pySplitChar_ne_nil sep cs)
      | cons hd tl =>
        have hhd : hd = cs.takeWhile (fun c => c != sep) := by
          rw [← ih, hr]; rfl
        simp [List.takeWhile_cons, h, hhd]

/-- C4: For every raw price string, the Price Parser (price_conversion)
returns the substring before the first `.` with every non-decimal-digit
character removed — a digit-only string; `5'990.00 руб.` maps to `"5990"`,
`10'990.00 руб.` maps to `"10990"`, and an input with no digits before the
first `.` yields the empty string. -/
theorem C4_price_conversion :
    (∀ s : String, price_conversion s =
        String.mk ((s.toList.takeWhile (fun c => c != '.')).filter Char.isDigit))
    ∧ price_conversion rubPrice5990 = "5990"
    ∧ price_conversion rubPrice10990 = "10990"
    ∧ (∀ s : String,
        (s.toList.takeWhile (fun c => c != '.')).all (fun c => !c.isDigit) →
        price_conversion s = "")
    ∧ (∀ s : String, (price_conversion s).toList.all Char.isDigit) := by
  have hchar : ∀ s : String, price_conversion s =
      String.mk ((s.toList.takeWhile (fun c => c != '.')).filter Char.isDigit) := by
    intro s
    unfold price_conversion
    rw [pySplitChar_headD]
  refine ⟨hchar, by decide, by decide, ?_, ?_⟩
  · intro s h
    rw [hchar s]
    have : (s.toList.takeWhile (fun c => c != '.')).filter Char.isDigit = [] := by
      rw [List.filter_eq_nil_iff]
      intro a ha
      have := (List.all_eq_true.mp h) a ha
      simpa using this
    exact congrArg String.mk this
  · intro s
    rw [hchar s]
    rw [List.all_eq_true]
    intro c hc
    exact (List.mem_filter.mp hc).2

/-- Witness for C4 at a concrete input with no digits before the dot. -/
theorem C4_price_conversion_witness : price_conversion "abc.99" = "" :=
  C4_price_conversion.2.2.2.1 "abc.99" (by decide)

/-!
### Batcher lemmas
-/

theorem divide_nil {α : Type} (n : Nat) : divide ([] : List α) n = [] := by
  cases n <;> simp [divide]

theorem divide_eq_nil_iff {α : Type} (l : List α) (n : Nat) :
    divide l (n + 1) = [] ↔ l = [] := by
  cases l <;> simp [divide]

theorem divide_flatten {α : Type} :
    ∀ (l : List α) (n : Nat), (divide l (n + 1)).flatten = l
  | [], n => by simp [divide]
  | x :: xs, n => by
    have ih := divide_flatten ((x :: xs).drop (n + 1)) n
    simp only [divide, List.flatten_cons, ih]
    exact List.take_append_drop _ _
termination_by l _ => l.length
decreasing_by simp only [List.length_drop, List.length_cons]; omega

theorem divide_chunk_length_le {α : Type} :
    ∀ (l : List α) (n : Nat), ∀ c ∈ divide l n, c.length ≤ n
  | _, 0 => by simp [divide]
  | [], _ + 1 => by simp [divide]
  | x :: xs, n + 1 => by
    intro c hc
    simp only [divide, List.mem_cons] at hc
    rcases hc with rfl | hc
    · simp only [List.length_take, List.length_cons]
      omega
    · exact divide_chunk_length_le (List.drop n xs) (n + 1) c hc
termination_by l _ => l.length
decreasing_by simp only [List.length_drop, List.length_cons]; omega

theorem divide_dropLast_length {α : Type} :
    ∀ (l : List α) (n : Nat), ∀ c ∈ (divide l (n + 1)).dropLast, c.length = n + 1
  | [], n => by simp [divide]
  | x :: xs, n => by
    intro c hc
    simp only [divide, List.take_succ_cons, List.drop_succ_cons] at hc
    cases hrest : divide (List.drop n xs) (n + 1) with
    | nil =>
      rw [hrest] at hc
      simp at hc
    | cons r rs =>
      rw [hrest, List.dropLast_cons₂, List.mem_cons] at hc
      rcases hc with rfl | hc
      · have hd : List.drop n xs ≠ [] := by
          intro hnil
          rw [hnil, divide_nil] at hrest
          exact List.cons_ne_nil r rs hrest.symm
        have hlen : n < xs.length := by
          by_contra hle
          exact hd (List.drop_eq_nil_of_le (by omega))
        simp only [List.length_cons, List.length_take]
        omega
      · have ihh := divide_dropLast_length (List.drop n xs) n c
        rw [hrest] at ihh
        exact ihh hc
termination_by l _ => l.length
decreasing_by simp only [List.length_drop, List.length_cons]; omega

theorem divide_getLast_length {α : Type} :
    ∀ (l : List α) (n : Nat), ∀ c, (divide l (n + 1)).getLast? = some c →
      c.length = if l.length % (n + 1) = 0 then n + 1 else l.length % (n + 1)
  | [], n => by simp [divide]
  | x :: xs, n => by
    intro c hc
    simp only [divide, List.take_succ_cons, List.drop_succ_cons] at hc
    cases hrest : divide (List.drop n xs) (n + 1) with
    | nil =>
      rw [hrest] at hc
      simp only [List.getLast?_singleton, Option.some_inj] at hc
      subst hc
      have hd : List.drop n xs = [] := (divide_eq_nil_iff (List.drop n xs) n).mp hrest
      have hlen : xs.length ≤ n := by
        by_contra hgt
        have hne : List.drop n xs ≠ [] := by
          apply List.ne_nil_of_length_pos
          rw [List.length_drop]
          omega
        exact hne hd
      simp only [List.length_cons, List.length_take]
      rcases Nat.eq_or_lt_of_le hlen with heq | hlt
      · rw [heq]
        simp [Nat.mod_self]
      · have hmod : (xs.length + 1) % (n + 1) = xs.length + 1 :=
          Nat.mod_eq_of_lt (by omega)
        rw [hmod, if_neg (by omega)]
        omega
    | cons r rs =>
      rw [hrest, List.getLast?_cons_cons] at hc
      have ihh := divide_getLast_length (List.drop n xs) n c
      rw [hrest] at ihh
      have hres := ihh hc
      have hd : List.drop n xs ≠ [] := by
        intro hnil
        rw [hnil, divide_nil] at hrest
        exact List.cons_ne_nil r rs hrest.symm
      have hlen : n < xs.length := by
        by_contra hle
        exact hd (List.drop_eq_nil_of_le (by omega))
      rw [List.length_drop] at hres
      have h1 : (x :: xs).length = (xs.length - n) + (n + 1) := by
        simp only [List.length_cons]
        omega
      rw [h1, Nat.add_mod_right]
      exact hres
termination_by l _ => l.length
decreasing_by simp only [List.length_drop, List.length_cons]; omega

/-- C2: for every list and positive chunk size n, divide yields contiguous
chunks whose concatenation is the original list, each chunk of length n
except possibly the last, whose length is `length mod n` (or `n` when n
divides the length evenly). -/
theorem C2_divide_partition {α : Type} (lst : List α) (n : Nat) (h : 0 < n) :
    (divide lst n).flatten = lst
    ∧ (∀ c ∈ (divide lst n).dropLast, c.length = n)
    ∧ (∀ c, (divide lst n).getLast? = some c →
        c.length = if lst.length % n = 0 then n else lst.length % n) := by
  obtain ⟨m, rfl⟩ : ∃ m, n = m + 1 := ⟨n - 1, by omega⟩
  exact ⟨divide_flatten lst m, divide_dropLast_length lst m,
    divide_getLast_length lst m⟩

/-- Witness for C2 at a 5-element list with chunk size 3. -/
theorem C2_divide_partition_witness :
    (divide [1, 2, 3, 4, 5] 3).flatten = [1, 2, 3, 4, 5]
    ∧ (∀ c ∈ (divide [1, 2, 3, 4, 5] 3).dropLast, c.length = 3)
    ∧ (∀ c, (divide [1, 2, 3, 4, 5] 3).getLast? = some c →
        c.length = if ([1, 2, 3, 4, 5] : List Nat).length % 3 = 0 then 3
          else ([1, 2, 3, 4, 5] : List Nat).length % 3) :=
  C2_divide_partition [1, 2, 3, 4, 5] 3 (by decide)

/-!
### Price Reconciler lemmas
-/

theorem Seller.create_prices_loop_fst (feed : List FeedRow) (ids : List String) :
    (Seller.create_prices_loop feed ids).1 =
      (feed.filter (fun r => decide (r.code ∈ ids))).map
        (fun r => ⟨"UNKNOWN", "RUB", r.code, "0", price_conversion r.price⟩) := by
  induction feed with
  | nil => rfl
  | cons w rest ih =>
    simp only [Seller.create_prices_loop, List.filter_cons]
    by_cases h : w.code ∈ ids
    · simp [h, ih]
    · simp [h, ih]

theorem Seller.create_prices_loop_snd (feed : List FeedRow) (ids : List String) :
    (Seller.create_prices_loop feed ids).2 = ids := by
  induction feed with
  | nil => rfl
  | cons w rest ih =>
    simp only [Seller.create_prices_loop]
    by_cases h : w.code ∈ ids <;> simp [h, ih]

theorem Seller.create_prices_empty_of_uncovered (feed : List FeedRow)
    (ids : List String) (h : ∀ r ∈ feed, r.code ∉ ids) :
    (Seller.create_prices feed ids).1 = [] := by
  rw [Seller.create_prices, Seller.create_prices_loop_fst]
  have : feed.filter (fun r => decide (r.code ∈ ids)) = [] := by
    rw [List.filter_eq_nil_iff]
    intro r hr
    simpa using h r hr
  rw [this]
  rfl

/-- C3: for every feed and catalog, create_prices emits, in feed order,
exactly one price record (with the parsed price and the fixed metadata
fields) per feed row whose code is in the catalog, and emits no record at
all for a catalog id covered by no feed row; on catalog `{"123","789"}`
with the single feed row for `"123"` priced `5'990.00 руб.` the result is
exactly one record for `"123"` with price 5990 (string `"5990"` on the
Ozon side, integer 5990 on the Yandex side). -/
theorem C3_create_prices :
    (∀ (feed : List FeedRow) (ids : List String),
        (Seller.create_prices feed ids).1 =
          (feed.filter (fun r => decide (r.code ∈ ids))).map
            (fun r => ⟨"UNKNOWN", "RUB", r.code, "0", price_conversion r.price⟩))
    ∧ (∀ (feed : List FeedRow) (ids : List String) (id : String),
        (∀ r ∈ feed, r.code ≠ id) →
        ((Seller.create_prices feed ids).1).filter
          (fun p => p.offer_id == id) = [])
    ∧ Seller.create_prices [⟨"123", "5", rubPrice5990⟩] ["123", "789"] =
        ([⟨"UNKNOWN", "RUB", "123", "0", "5990"⟩], ["123", "789"])
    ∧ Market.create_prices [⟨"123", "5", rubPrice5990⟩] ["123", "789"] =
        some ([⟨"123", ⟨5990, "RUR"⟩⟩], ["123", "789"]) := by
  refine ⟨?_, ?_, by decide, by decide⟩
  · intro feed ids
    exact Seller.create_prices_loop_fst feed ids
  · intro feed ids id h
    rw [Seller.create_prices, Seller.create_prices_loop_fst,
      List.filter_eq_nil_iff]
    intro p hp
    obtain ⟨r, hr, rfl⟩ := List.mem_map.mp hp
    have hrf : r ∈ feed := List.mem_of_mem_filter hr
    simpa using h r hrf

/-- Witness for C3: the uncovered catalog id "789" gets no record. -/
theorem C3_create_prices_witness :
    ((Seller.create_prices [⟨"123", "5", rubPrice5990⟩] ["123", "789"]).1).filter
      (fun p => p.offer_id == "789") = [] :=
  C3_create_prices.2.1 [⟨"123", "5", rubPrice5990⟩] ["123", "789"] "789"
    (by decide)

/-!
### Stock Reconciler lemmas
-/

theorem dedupByCode_sub : ∀ (l : List FeedRow), ∀ x ∈ dedupByCode l, x ∈ l
  | [] => by simp [dedupByCode]
  | r :: rest => by
    intro x hx
    simp only [dedupByCode, List.mem_cons] at hx ⊢
    rcases hx with rfl | hx
    · exact Or.inl rfl
    · exact Or.inr (List.mem_of_mem_filter
        (dedupByCode_sub (rest.filter (fun y => y.code != r.code)) x hx))
termination_by l => l.length
decreasing_by
  have := List.length_filter_le (fun y => y.code != r.code) rest
  simp only [List.length_cons]
  omega

theorem dedupByCode_codes_mem : ∀ (l : List FeedRow) (c : String),
    c ∈ l.map FeedRow.code → c ∈ (dedupByCode l).map FeedRow.code
  | [] => by simp
  | r :: rest => by
    intro c hc
    simp only [List.map_cons, List.mem_cons] at hc
    simp only [dedupByCode, List.map_cons, List.mem_cons]
    rcases hc with rfl | hc
    · exact Or.inl rfl
    · by_cases hcr : c = r.code
      · exact Or.inl hcr
      · refine Or.inr (dedupByCode_codes_mem
          (rest.filter (fun y => y.code != r.code)) c ?_)
        obtain ⟨y, hy, rfl⟩ := List.mem_map.mp hc
        refine List.mem_map.mpr ⟨y, List.mem_filter.mpr ⟨hy, ?_⟩, rfl⟩
        simpa [bne_iff_ne] using hcr
termination_by l => l.length
decreasing_by
  have := List.length_filter_le (fun y => y.code != r.code) rest
  simp only [List.length_cons]
  omega

theorem dedupByCode_codes_nodup :
    ∀ (l : List FeedRow), ((dedupByCode l).map FeedRow.code).Nodup
  | [] => by simp [dedupByCode]
  | r :: rest => by
    simp only [dedupByCode, List.map_cons, List.nodup_cons]
    constructor
    · intro hmem
      obtain ⟨y, hy, hyc⟩ := List.mem_map.mp hmem
      have hyl := dedupByCode_sub (rest.filter (fun x => x.code != r.code)) y hy
      have hb := (List.mem_filter.mp hyl).2
      rw [bne_iff_ne] at hb
      exact hb hyc
    · exact dedupByCode_codes_nodup (rest.filter (fun x => x.code != r.code))
termination_by l => l.length
decreasing_by
  have := List.length_filter_le (fun x => x.code != r.code) rest
  simp only [List.length_cons]
  omega

theorem find?_filter_comm {α : Type} (p q : α → Bool)
    (hpq : ∀ a, p a = true → q a = true) (l : List α) :
    (l.filter q).find? p = l.find? p := by
  induction l with
  | nil => rfl
  | cons a t ih =>
    by_cases hq : q a
    · by_cases hp : p a
      · simp [List.filter_cons, hq, List.find?_cons, hp]
      · simp [List.filter_cons, hq, List.find?_cons, hp, ih]
    · have hp : p a = false := by
        by_contra hph
        exact hq (hpq a (by simpa using hph))
      simp [List.filter_cons, hq, List.find?_cons, hp, ih]

theorem dedupByCode_find_mem : ∀ (l : List FeedRow) (c : String) (r : FeedRow),
    l.find? (fun x => x.code == c) = some r → r ∈ dedupByCode l
  | [] => by simp
  | y :: rest => by
    intro c r hf
    simp only [dedupByCode, List.mem_cons]
    by_cases hyc : y.code = c
    · left
      rw [List.find?_cons_of_pos _ (by simpa using hyc)] at hf
      exact (Option.some_inj.mp hf).symm
    · right
      rw [List.find?_cons_of_neg _ (by simpa using hyc)] at hf
      have hcomm : ((rest.filter (fun x => x.code != y.code)).find?
          (fun x => x.code == c)) = rest.find? (fun x => x.code == c) := by
        apply find?_filter_comm
        intro a ha
        have hac : a.code = c := by simpa using ha
        rw [bne_iff_ne, hac]
        exact fun he => hyc he.symm
      exact dedupByCode_find_mem (rest.filter (fun x => x.code != y.code)) c r
        (hcomm.symm ▸ hf)
termination_by l => l.length
decreasing_by
  simp only [List.length_cons]
  exact Nat.lt_succ_of_le (List.length_filter_le _ _)

theorem recordsOfRows_map_code (l : List FeedRow) :
    ∀ (recs : List Seller.StockRecord), Seller.recordsOfRows l = some recs →
      recs.map Seller.StockRecord.offer_id = l.map FeedRow.code := by
  induction l with
  | nil =>
    intro recs h
    simp only [Seller.recordsOfRows, Option.some_inj] at h
    subst h
    simp
  | cons r rest ih =>
    intro recs h
    simp only [Seller.recordsOfRows] at h
    cases hq : stockOfCount r.quantity with
    | none => rw [hq] at h; simp at h
    | some q =>
      cases hr : Seller.recordsOfRows rest with
      | none => rw [hq, hr] at h; simp at h
      | some recs2 =>
        rw [hq, hr] at h
        simp only [Option.some_inj] at h
        subst h
        simp [ih recs2 hr]

theorem recordsOfRows_isSome_mem (l : List FeedRow) :
    ∀ (recs : List Seller.StockRecord) (r : FeedRow) (q : Int),
      Seller.recordsOfRows l = some recs → r ∈ l →
      stockOfCount r.quantity = some q →
      (⟨r.code, q⟩ : Seller.StockRecord) ∈ recs := by
  induction l with
  | nil => intro recs r q _ hm; simp at hm
  | cons y rest ih =>
    intro recs r q h hm hq
    simp only [Seller.recordsOfRows] at h
    cases hqy : stockOfCount y.quantity with
    | none => rw [hqy] at h; simp at h
    | some qy =>
      cases hr : Seller.recordsOfRows rest with
      | none => rw [hqy, hr] at h; simp at h
      | some recs2 =>
        rw [hqy, hr] at h
        simp only [Option.some_inj] at h
        subst h
        rcases List.mem_cons.mp hm with rfl | hm2
        · rw [hq] at hqy
          rw [Option.some_inj.mp hqy]
          exact List.mem_cons_self _ _
        · exact List.mem_cons_of_mem _ (ih recs2 r q hr hm2 hq)

theorem stock_filter_eq_singleton (c : String) (q : Int) :
    ∀ (recs : List Seller.StockRecord),
      (recs.map Seller.StockRecord.offer_id).Nodup →
      (⟨c, q⟩ : Seller.StockRecord) ∈ recs →
      recs.filter (fun x => x.offer_id == c) = [⟨c, q⟩] := by
  intro recs
  induction recs with
  | nil => intro _ hm; simp at hm
  | cons y rest ih =>
    intro hnd hm
    simp only [List.map_cons, List.nodup_cons] at hnd
    rcases List.mem_cons.mp hm with heq | hm2
    · subst heq
      simp only [List.filter_cons, beq_self_eq_true, if_pos]
      have hrest : rest.filter (fun x => x.offer_id == c) = [] := by
        rw [List.filter_eq_nil_iff]
        intro x hx hbeq
        have hxc : x.offer_id = c := by simpa using hbeq
        exact hnd.1 (by
          simpa [hxc] using List.mem_map_of_mem Seller.StockRecord.offer_id hx)
      simp [hrest]
    · have hyc : (y.offer_id == c) = false := by
        rw [beq_eq_false_iff_ne]
        intro he
        exact hnd.1 (he ▸ (List.mem_map_of_mem Seller.StockRecord.offer_id hm2 :
          (⟨c, q⟩ : Seller.StockRecord).offer_id ∈ _))
      simp only [List.filter_cons, hyc, if_neg]
      · exact ih hnd.2 hm2

/-- Master structural lemma for the stock-reconciliation loop on a
duplicate-free catalog: the loop's emitted records are exactly the
records of the deduplicated matched rows, and the final `offer_ids` list
is exactly the catalog ids no feed row matches, in catalog order. -/
theorem Seller.create_stocks_loop_eq :
    ∀ (feed : List FeedRow) (cat : List String), cat.Nodup →
      Seller.create_stocks_loop feed cat =
        (Seller.recordsOfRows (matchedRows feed cat)).map
          (fun recs => (recs, unmatchedIds feed cat)) := by
  intro feed
  induction feed with
  | nil =>
    intro cat _
    simp [Seller.create_stocks_loop, matchedRows, dedupByCode,
      Seller.recordsOfRows, unmatchedIds]
  | cons watch rest ih =>
    intro cat hnd
    by_cases hin : watch.code ∈ cat
    · have hmr : matchedRows (watch :: rest) cat =
          watch :: matchedRows rest (cat.erase watch.code) := by
        unfold matchedRows
        rw [List.filter_cons, if_pos (by simpa using hin)]
        simp only [dedupByCode]
        congr 1
        rw [List.filter_filter]
        refine congrArg dedupByCode ?_
        apply List.filter_congr
        intro x _
        rw [Bool.eq_iff_iff]
        simp only [Bool.and_eq_true, bne_iff_ne, ne_eq, decide_eq_true_eq,
          hnd.mem_erase_iff]
      have hun : unmatchedIds (watch :: rest) cat =
          unmatchedIds rest (cat.erase watch.code) := by
        unfold unmatchedIds
        rw [hnd.erase_eq_filter watch.code, List.filter_filter]
        apply List.filter_congr
        intro id _
        rw [Bool.eq_iff_iff]
        simp only [List.all_cons, Bool.and_eq_true, bne_iff_ne, ne_eq,
          List.all_eq_true]
        constructor
        · rintro ⟨h1, h2⟩
          exact ⟨h2, fun he => h1 he.symm⟩
        · rintro ⟨h2, h1⟩
          exact ⟨fun he => h1 he.symm, h2⟩
      cases hq : stockOfCount watch.quantity with
      | none =>
        simp only [Seller.create_stocks_loop, if_pos hin, hq]
        rw [hmr]
        simp only [Seller.recordsOfRows, hq]
        rfl
      | some st =>
        simp only [Seller.create_stocks_loop, if_pos hin, hq]
        rw [ih (cat.erase watch.code) (hnd.erase watch.code), hmr, hun]
        simp only [Seller.recordsOfRows, hq]
        cases hr : Seller.recordsOfRows (matchedRows rest (cat.erase watch.code)) with
        | none => simp
        | some recs => simp
    · have hmr : matchedRows (watch :: rest) cat = matchedRows rest cat := by
        unfold matchedRows
        rw [List.filter_cons, if_neg (by simpa using hin)]
      have hun : unmatchedIds (watch :: rest) cat = unmatchedIds rest cat := by
        unfold unmatchedIds
        apply List.filter_congr
        intro id hid
        have hne : watch.code ≠ id := fun he => hin (he ▸ hid)
        have ha : (watch.code != id) = true := by
          simpa [bne_iff_ne] using hne
        simp [List.all_cons, ha]
      simp only [Seller.create_stocks_loop, if_neg hin]
      rw [ih cat hnd, hmr, hun]

theorem Seller.create_stocks_some_struct (feed : List FeedRow)
    (cat : List String) (res : List Seller.StockRecord) (rem : List String)
    (hnd : cat.Nodup) (h : Seller.create_stocks feed cat = some (res, rem)) :
    ∃ mrecs, Seller.recordsOfRows (matchedRows feed cat) = some mrecs
      ∧ res = mrecs ++ (unmatchedIds feed cat).map (fun id => ⟨id, 0⟩)
      ∧ rem = unmatchedIds feed cat := by
  unfold Seller.create_stocks at h
  rw [Seller.create_stocks_loop_eq feed cat hnd] at h
  cases hr : Seller.recordsOfRows (matchedRows feed cat) with
  | none => rw [hr] at h; simp at h
  | some mrecs =>
    rw [hr] at h
    have h2 : ((mrecs ++ (unmatchedIds feed cat).map
          (fun id => (⟨id, 0⟩ : Seller.StockRecord)), unmatchedIds feed cat) :
          List Seller.StockRecord × List String) = (res, rem) := by
      simpa using h
    cases h2
    exact ⟨mrecs, rfl, rfl, rfl⟩

theorem mem_matched_codes_iff (feed : List FeedRow) (cat : List String)
    (c : String) :
    c ∈ (matchedRows feed cat).map FeedRow.code ↔
      (c ∈ cat ∧ ∃ r ∈ feed, r.code = c) := by
  constructor
  · intro h
    obtain ⟨y, hy, rfl⟩ := List.mem_map.mp h
    have hyl := dedupByCode_sub _ y hy
    have hy2 := List.mem_filter.mp hyl
    exact ⟨by simpa using hy2.2, y, hy2.1, rfl⟩
  · rintro ⟨hc, r, hr, rfl⟩
    apply dedupByCode_codes_mem
    exact List.mem_map.mpr ⟨r, List.mem_filter.mpr ⟨hr, by simpa using hc⟩, rfl⟩

theorem mem_unmatchedIds_iff (feed : List FeedRow) (cat : List String)
    (c : String) :
    c ∈ unmatchedIds feed cat ↔ (c ∈ cat ∧ ∀ r ∈ feed, r.code ≠ c) := by
  unfold unmatchedIds
  simp [List.mem_filter, List.all_eq_true, bne_iff_ne]

theorem filter_not_append_filter_perm {α : Type} (p : α → Bool) :
    ∀ l : List α, List.Perm (l.filter (fun a => !(p a)) ++ l.filter p) l
  | [] => by simp
  | a :: t => by
    by_cases h : p a = true
    · simp only [List.filter_cons, h, Bool.not_true, Bool.false_eq_true,
        if_false, if_true]
      exact List.Perm.trans List.perm_middle
        ((filter_not_append_filter_perm p t).cons a)
    · have hf : p a = false := by
        cases hpa : p a
        · rfl
        · exact absurd hpa h
      simp only [List.filter_cons, hf, Bool.not_false, Bool.false_eq_true,
        if_false, if_true, List.cons_append]
      exact (filter_not_append_filter_perm p t).cons a

theorem map_offer_id_zero (l : List String) :
    ((l.map (fun id => (⟨id, 0⟩ : Seller.StockRecord))).map
      Seller.StockRecord.offer_id) = l := by
  induction l with
  | nil => rfl
  | cons a t ih => simp [ih]

theorem Seller.stocks_ids_nodup (feed : List FeedRow) (cat : List String)
    (res : List Seller.StockRecord) (rem : List String) (hnd : cat.Nodup)
    (h : Seller.create_stocks feed cat = some (res, rem)) :
    (res.map Seller.StockRecord.offer_id).Nodup := by
  obtain ⟨mrecs, hm, hres, hrem⟩ :=
    Seller.create_stocks_some_struct feed cat res rem hnd h
  subst hres
  rw [List.map_append]
  have hmc : mrecs.map Seller.StockRecord.offer_id =
      (matchedRows feed cat).map FeedRow.code :=
    recordsOfRows_map_code _ mrecs hm
  rw [hmc, map_offer_id_zero]
  apply List.Nodup.append
  · exact dedupByCode_codes_nodup _
  · exact hnd.filter _
  · intro c hc1 hc2
    obtain ⟨_, r, hr, rfl⟩ := (mem_matched_codes_iff feed cat c).mp hc1
    obtain ⟨_, hall⟩ := (mem_unmatchedIds_iff feed cat _).mp hc2
    exact hall r hr rfl

theorem Seller.stocks_ids_perm (feed : List FeedRow) (cat : List String)
    (res : List Seller.StockRecord) (rem : List String) (hnd : cat.Nodup)
    (h : Seller.create_stocks feed cat = some (res, rem)) :
    List.Perm (res.map Seller.StockRecord.offer_id) cat := by
  obtain ⟨mrecs, hm, hres, hrem⟩ :=
    Seller.create_stocks_some_struct feed cat res rem hnd h
  subst hres
  rw [List.map_append]
  have hmc : mrecs.map Seller.StockRecord.offer_id =
      (matchedRows feed cat).map FeedRow.code :=
    recordsOfRows_map_code _ mrecs hm
  rw [hmc, map_offer_id_zero]
  have hnd1 : ((matchedRows feed cat).map FeedRow.code).Nodup :=
    dedupByCode_codes_nodup _
  have hperm1 : List.Perm ((matchedRows feed cat).map FeedRow.code)
      (cat.filter (fun id => !(feed.all (fun r => r.code != id)))) := by
    rw [List.perm_ext_iff_of_nodup hnd1 (hnd.filter _)]
    intro c
    rw [mem_matched_codes_iff]
    simp only [List.mem_filter]
    constructor
    · rintro ⟨hc, r, hr, rfl⟩
      refine ⟨hc, ?_⟩
      cases hall : feed.all (fun x => x.code != r.code) with
      | false => simp
      | true =>
        have hbne := List.all_eq_true.mp hall r hr
        rw [bne_iff_ne] at hbne
        exact absurd rfl hbne
    · rintro ⟨hc, hno⟩
      refine ⟨hc, ?_⟩
      have hall : feed.all (fun r => r.code != c) = false := by
        cases hall2 : feed.all (fun r => r.code != c)
        · rfl
        · rw [hall2] at hno
          simp at hno
      have hnot : ¬ (∀ r ∈ feed, (r.code != c) = true) := by
        intro hforall
        rw [← List.all_eq_true] at hforall
        rw [hforall] at hall
        simp at hall
      push_neg at hnot
      obtain ⟨r, hr, hrne⟩ := hnot
      refine ⟨r, hr, ?_⟩
      by_contra hne
      exact hrne (by simpa [bne_iff_ne] using hne)
  refine List.Perm.trans (List.Perm.append_right _ hperm1) ?_
  exact filter_not_append_filter_perm
    (fun id => feed.all (fun r => r.code != id)) cat

/-- Failure propagation: when the first feed row carrying its code has a
code in the catalog and a quantity that parses under none of the three
rules, the loop raises (returns `none`). -/
theorem Seller.create_stocks_loop_none (feed : List FeedRow) :
    ∀ (cat : List String) (r : FeedRow),
      feed.find? (fun x => x.code == r.code) = some r → r.code ∈ cat →
      stockOfCount r.quantity = none →
      Seller.create_stocks_loop feed cat = none := by
  induction feed with
  | nil => intro cat r hf _ _; simp at hf
  | cons y rest ih =>
    intro cat r hf hc hq
    by_cases hyr : y.code = r.code
    · rw [List.find?_cons_of_pos _ (by simpa using hyr)] at hf
      have hy : y = r := Option.some_inj.mp hf
      subst hy
      simp only [Seller.create_stocks_loop, if_pos hc, hq]
    · rw [List.find?_cons_of_neg _ (by simpa using hyr)] at hf
      simp only [Seller.create_stocks_loop]
      by_cases hyc : y.code ∈ cat
      · rw [if_pos hyc]
        cases hqy : stockOfCount y.quantity with
        | none => rfl
        | some st =>
          have hmem : r.code ∈ cat.erase y.code :=
            (List.mem_erase_of_ne (fun he => hyr he.symm)).mpr hc
          rw [ih (cat.erase y.code) r hf hmem hq]
          rfl
      · rw [if_neg hyc]
        exact ih cat r hf hc hq

theorem Seller.create_stocks_none (feed : List FeedRow) (cat : List String)
    (r : FeedRow) (hf : feed.find? (fun x => x.code == r.code) = some r)
    (hc : r.code ∈ cat) (hq : stockOfCount r.quantity = none) :
    Seller.create_stocks feed cat = none := by
  unfold Seller.create_stocks
  rw [Seller.create_stocks_loop_none feed cat r hf hc hq]
  rfl

/-- The Yandex stock loop is the Ozon stock loop with each record put in
the warehouse/items envelope. -/
theorem Market.create_stocks_loop_eq_seller (wh date : String)
    (feed : List FeedRow) :
    ∀ cat, Market.create_stocks_loop wh date feed cat =
      (Seller.create_stocks_loop feed cat).map
        (fun p => (p.1.map (Seller.StockRecord.toMarket wh date), p.2)) := by
  induction feed with
  | nil => intro cat; rfl
  | cons watch rest ih =>
    intro cat
    simp only [Market.create_stocks_loop, Seller.create_stocks_loop]
    by_cases hin : watch.code ∈ cat
    · rw [if_pos hin, if_pos hin]
      cases hq : stockOfCount watch.quantity with
      | none => rfl
      | some st =>
        rw [ih (cat.erase watch.code)]
        cases hr : Seller.create_stocks_loop rest (cat.erase watch.code) with
        | none => rfl
        | some p => simp [Seller.StockRecord.toMarket]
    · rw [if_neg hin, if_neg hin]
      exact ih cat

theorem Market.create_stocks_eq_seller (feed : List FeedRow)
    (cat : List String) (wh date : String) :
    Market.create_stocks feed cat wh date =
      (Seller.create_stocks feed cat).map
        (fun p => (p.1.map (Seller.StockRecord.toMarket wh date), p.2)) := by
  unfold Market.create_stocks Seller.create_stocks
  rw [Market.create_stocks_loop_eq_seller]
  cases Seller.create_stocks_loop feed cat with
  | none => rfl
  | some p => simp [Seller.StockRecord.toMarket, List.map_append, List.map_map]

theorem divide_map_length {α : Type} :
    ∀ (l : List α) (n : Nat),
      (divide l (n + 1)).map List.length = chunkLens l.length (n + 1)
  | [], n => by simp [divide, chunkLens]
  | x :: xs, n => by
    have ih := divide_map_length (List.drop n xs) n
    rw [List.length_drop] at ih
    have h2 : xs.length - n = xs.length + 1 - (n + 1) := by omega
    rw [h2] at ih
    simp only [divide, List.map_cons, List.length_cons, List.length_take,
      List.drop_succ_cons, ih]
    have hch : chunkLens (xs.length + 1) (n + 1) =
        min (n + 1) (xs.length + 1) ::
          chunkLens (xs.length + 1 - (n + 1)) (n + 1) := by
      simp [chunkLens]
    rw [hch]
termination_by l _ => l.length
decreasing_by simp only [List.length_drop, List.length_cons]; omega

theorem Market.create_prices_loop_replicate (r : FeedRow) (ids : List String)
    (v : Int) (hin : r.code ∈ ids)
    (hv : pyInt (price_conversion r.price) = some v) :
    ∀ k, Market.create_prices_loop (List.replicate k r) ids =
      some (List.replicate k (⟨r.code, ⟨v, "RUR"⟩⟩ : Market.PriceRecord), ids) := by
  intro k
  induction k with
  | zero => rfl
  | succ m ih =>
    rw [List.replicate_succ]
    simp only [Market.create_prices_loop, if_pos hin, hv, ih]
    simp [List.replicate_succ]

theorem Seller.main_core_prices_empty (feed : List FeedRow)
    (cat : List String) (hnd : cat.Nodup) :
    ∀ sb pb, Seller.main_core feed cat = some (sb, pb) → pb = [] := by
  intro sb pb h
  cases hcs : Seller.create_stocks feed cat with
  | none =>
    unfold Seller.main_core at h
    rw [hcs] at h
    simp at h
  | some p =>
    obtain ⟨stocks, rem⟩ := p
    obtain ⟨mrecs, hm, hres, hrem⟩ :=
      Seller.create_stocks_some_struct feed cat stocks rem hnd hcs
    have hempty : (Seller.create_prices feed rem).1 = [] := by
      apply Seller.create_prices_empty_of_uncovered
      intro r hr hmem
      rw [hrem] at hmem
      obtain ⟨_, hall⟩ := (mem_unmatchedIds_iff feed cat _).mp hmem
      exact hall r hr rfl
    have h2 : (some (divide stocks 100,
        divide ((Seller.create_prices feed rem).1) 900) :
        Option (List (List Seller.StockRecord) ×
          List (List Seller.PriceRecord))) = some (sb, pb) := by
      rw [← h]
      unfold Seller.main_core
      rw [hcs]
    have hpb : divide ((Seller.create_prices feed rem).1) 900 = pb :=
      congrArg Prod.snd (Option.some_inj.mp h2)
    rw [hempty, divide_nil] at hpb
    exact hpb.symm

/-!
### Claim theorems
-/

/-- C1 counterexample: on the duplicated catalog `["7", "7"]` with an empty
feed, `create_stocks` returns TWO records for the single offer id `"7"`,
so "exactly one stock record per catalog offer id" fails for an arbitrary
catalog offer-id list. -/
theorem C1_counterexample :
    Seller.create_stocks [] ["7", "7"] =
      some ([⟨"7", 0⟩, ⟨"7", 0⟩], ["7", "7"])
    ∧ (([(⟨"7", 0⟩ : Seller.StockRecord), ⟨"7", 0⟩].filter
        (fun r => r.offer_id == "7")).length = 1 → False) :=
  ⟨by decide, by decide⟩

/-- C1 (amended): for a catalog with pairwise-distinct offer ids, whenever
the Stock Reconciler returns at all, its result has exactly one record per
catalog offer id (the record ids are a duplicate-free permutation of the
catalog); it is the feed-order records of the matched rows — first row per
code, code still in the remaining catalog — followed, in original catalog
order, by a quantity-0 record for every catalog id matched by no feed
row; quantities follow the `">10" ↦ 100`, `"1" ↦ 0`, otherwise-integer-
parse rule; and the Yandex variant is the same reconciliation modulo
record shape. -/
theorem C1_stock_reconciliation (feed : List FeedRow) (cat : List String)
    (res : List Seller.StockRecord) (rem : List String) (hnd : cat.Nodup)
    (h : Seller.create_stocks feed cat = some (res, rem)) :
    (List.Perm (res.map Seller.StockRecord.offer_id) cat
      ∧ (res.map Seller.StockRecord.offer_id).Nodup)
    ∧ (∃ mrecs, Seller.recordsOfRows (matchedRows feed cat) = some mrecs
        ∧ res = mrecs ++ (unmatchedIds feed cat).map
            (fun id => (⟨id, 0⟩ : Seller.StockRecord)))
    ∧ stockOfCount ">10" = some 100
    ∧ stockOfCount "1" = some 0
    ∧ (∀ s q, s ≠ ">10" → s ≠ "1" → pyInt s = some q →
        stockOfCount s = some q)
    ∧ (∀ wh date, Market.create_stocks feed cat wh date =
        (Seller.create_stocks feed cat).map
          (fun p => (p.1.map (Seller.StockRecord.toMarket wh date), p.2))) := by
  refine ⟨⟨Seller.stocks_ids_perm feed cat res rem hnd h,
    Seller.stocks_ids_nodup feed cat res rem hnd h⟩, ?_, by decide, by decide,
    ?_, ?_⟩
  · obtain ⟨mrecs, hm, hres, _⟩ :=
      Seller.create_stocks_some_struct feed cat res rem hnd h
    exact ⟨mrecs, hm, hres⟩
  · intro s q h1 h2 h3
    unfold stockOfCount
    rw [if_neg h1, if_neg h2]
    exact h3
  · intro wh date
    exact Market.create_stocks_eq_seller feed cat wh date

/-- Witness for C1 at the docstring example: feed rows for codes "123"
(qty "5") and "987" (qty "10"), catalog ["123", "789"]. -/
theorem C1_stock_reconciliation_witness :
    (List.Perm (([(⟨"123", 5⟩ : Seller.StockRecord), ⟨"789", 0⟩].map
        Seller.StockRecord.offer_id) : List String) ["123", "789"]
      ∧ (([(⟨"123", 5⟩ : Seller.StockRecord), ⟨"789", 0⟩].map
        Seller.StockRecord.offer_id) : List String).Nodup)
    ∧ (∃ mrecs, Seller.recordsOfRows
          (matchedRows [⟨"123", "5", "p"⟩, ⟨"987", "10", "p"⟩]
            ["123", "789"]) = some mrecs
        ∧ [(⟨"123", 5⟩ : Seller.StockRecord), ⟨"789", 0⟩] =
            mrecs ++ (unmatchedIds [⟨"123", "5", "p"⟩, ⟨"987", "10", "p"⟩]
              ["123", "789"]).map (fun id => (⟨id, 0⟩ : Seller.StockRecord)))
    ∧ stockOfCount ">10" = some 100
    ∧ stockOfCount "1" = some 0
    ∧ (∀ s q, s ≠ ">10" → s ≠ "1" → pyInt s = some q →
        stockOfCount s = some q)
    ∧ (∀ wh date, Market.create_stocks
          [⟨"123", "5", "p"⟩, ⟨"987", "10", "p"⟩] ["123", "789"] wh date =
        (Seller.create_stocks [⟨"123", "5", "p"⟩, ⟨"987", "10", "p"⟩]
            ["123", "789"]).map
          (fun p => (p.1.map (Seller.StockRecord.toMarket wh date), p.2))) :=
  C1_stock_reconciliation [⟨"123", "5", "p"⟩, ⟨"987", "10", "p"⟩]
    ["123", "789"] [⟨"123", 5⟩, ⟨"789", 0⟩] ["789"] (by decide) (by decide)

/-- C5 counterexample: the feed rows `[("a", qty "5"), ("a", qty "7")]`
with catalog `["a"]` produce the record `⟨"a", 5⟩` from the FIRST row for
code "a"; the LAST such row (quantity 7) is ignored, refuting "last write
per code wins". -/
theorem C5_counterexample :
    Seller.create_stocks [⟨"a", "5", "p"⟩, ⟨"a", "7", "p"⟩] ["a"] =
      some ([⟨"a", 5⟩], [])
    ∧ stockOfCount "7" = some 7
    ∧ ((5 : Int) = 7 → False) :=
  ⟨by decide, by decide, by decide⟩

/-- C5 (amended): for a catalog with pairwise-distinct ids, when a code
appears in several feed rows the reconciled record for that id carries
the quantity derived from the FIRST such feed row in iteration order
(the id is removed from the remaining catalog on the first match, so
every later row with that code is ignored). -/
theorem C5_first_feed_row_wins (feed : List FeedRow) (cat : List String)
    (res : List Seller.StockRecord) (rem : List String) (c : String)
    (r : FeedRow) (q : Int) (hnd : cat.Nodup)
    (h : Seller.create_stocks feed cat = some (res, rem))
    (hfind : feed.find? (fun x => x.code == c) = some r) (hc : c ∈ cat)
    (hq : stockOfCount r.quantity = some q) :
    res.filter (fun x => x.offer_id == c) = [⟨c, q⟩] := by
  have hrc : r.code = c := by simpa using List.find?_some hfind
  obtain ⟨mrecs, hm, hres, hrem⟩ :=
    Seller.create_stocks_some_struct feed cat res rem hnd h
  have hnd2 := Seller.stocks_ids_nodup feed cat res rem hnd h
  have hpq : ∀ a : FeedRow, (a.code == c) = true →
      (decide (a.code ∈ cat)) = true := by
    intro a ha
    have hac : a.code = c := by simpa using ha
    simp [hac, hc]
  have hfind2 : (feed.filter (fun x => decide (x.code ∈ cat))).find?
      (fun x => x.code == c) = some r := by
    rw [find?_filter_comm _ _ hpq feed]
    exact hfind
  have hrmem : r ∈ matchedRows feed cat := dedupByCode_find_mem _ c r hfind2
  have hmem : (⟨r.code, q⟩ : Seller.StockRecord) ∈ mrecs :=
    recordsOfRows_isSome_mem _ mrecs r q hm hrmem hq
  rw [hrc] at hmem
  have hmem2 : (⟨c, q⟩ : Seller.StockRecord) ∈ res := by
    rw [hres]
    exact List.mem_append_left _ hmem
  exact stock_filter_eq_singleton c q res hnd2 hmem2

/-- Witness for C5 at the duplicated-code feed. -/
theorem C5_first_feed_row_wins_witness :
    ([(⟨"a", 5⟩ : Seller.StockRecord)].filter
      (fun x => x.offer_id == "a")) = [⟨"a", 5⟩] :=
  C5_first_feed_row_wins [⟨"a", "5", "p"⟩, ⟨"a", "7", "p"⟩] ["a"]
    [⟨"a", 5⟩] [] "a" ⟨"a", "5", "p"⟩ 5 (by decide) (by decide) (by decide)
    (by decide) (by decide)

/-- C7 counterexample: with the duplicated catalog `["a", "a"]` and the
single feed row for code "a", the mutated `offer_ids` list ends as
`["a"]` — it still contains an id that IS matched by a feed row, refuting
"exactly the catalog ids matched by no feed row" for arbitrary catalogs. -/
theorem C7_counterexample :
    (Seller.create_stocks [⟨"a", "5", "p"⟩] ["a", "a"]).map Prod.snd =
      some ["a"]
    ∧ (⟨"a", "5", "p"⟩ : FeedRow).code = "a"
    ∧ ((["a"] : List String) = [] → False) :=
  ⟨by decide, by decide, by decide⟩

/-- C7 (amended): for a catalog with pairwise-distinct ids, after
`create_stocks` returns, the caller's `offer_ids` list has become exactly
the catalog ids matched by no feed row, in their original relative order;
`create_prices` always leaves the caller's `offer_ids` list unchanged. -/
theorem C7_frame_effects (feed : List FeedRow) (cat : List String)
    (res : List Seller.StockRecord) (rem : List String) (hnd : cat.Nodup)
    (h : Seller.create_stocks feed cat = some (res, rem)) :
    rem = cat.filter (fun id => feed.all (fun r => r.code != id))
    ∧ (∀ (feed2 : List FeedRow) (ids : List String),
        (Seller.create_prices feed2 ids).2 = ids) := by
  obtain ⟨_, _, _, hrem⟩ :=
    Seller.create_stocks_some_struct feed cat res rem hnd h
  exact ⟨hrem, fun feed2 ids => Seller.create_prices_loop_snd feed2 ids⟩

/-- Witness for C7 at the docstring example. -/
theorem C7_frame_effects_witness :
    (["789"] : List String) = (["123", "789"].filter
      (fun id => [(⟨"123", "5", "p"⟩ : FeedRow)].all (fun r => r.code != id)))
    ∧ (∀ (feed2 : List FeedRow) (ids : List String),
        (Seller.create_prices feed2 ids).2 = ids) :=
  C7_frame_effects [⟨"123", "5", "p"⟩] ["123", "789"]
    [⟨"123", 5⟩, ⟨"789", 0⟩] ["789"] (by decide) (by decide)

/-- C8 counterexample: the second feed row has code "a" (which is in the
catalog) and the unparseable quantity "xx", yet `create_stocks` raises
nothing and returns a result list — the row is skipped because the first
row already consumed "a" from the remaining catalog. -/
theorem C8_counterexample :
    Seller.create_stocks [⟨"a", "5", "p"⟩, ⟨"a", "xx", "p"⟩] ["a"] =
      some ([⟨"a", 5⟩], [])
    ∧ (⟨"a", "xx", "p"⟩ : FeedRow).code ∈ (["a"] : List String)
    ∧ stockOfCount "xx" = none :=
  ⟨by decide, by decide, by decide⟩

/-- C8 (amended): for a feed row that is the FIRST row bearing its code,
with that code in the catalog and a raw quantity that is neither ">10"
nor "1" nor a valid base-10 integer literal, `create_stocks` raises (no
result list); nothing inside the reconciliation or batching catches the
error — the embedded `main` turns any such failure into its logged-error
outcome, and that is the only handler. -/
theorem C8_error_propagation (feed : List FeedRow) (cat : List String)
    (r : FeedRow) (hfind : feed.find? (fun x => x.code == r.code) = some r)
    (hc : r.code ∈ cat) (hq : stockOfCount r.quantity = none) :
    Seller.create_stocks feed cat = none
    ∧ Seller.main_run feed cat = Seller.RunOutcome.loggedError
    ∧ (∀ (feed2 : List FeedRow) (cat2 : List String),
        Seller.create_stocks feed2 cat2 = none →
        Seller.main_run feed2 cat2 = Seller.RunOutcome.loggedError) := by
  have hprop : ∀ (feed2 : List FeedRow) (cat2 : List String),
      Seller.create_stocks feed2 cat2 = none →
      Seller.main_run feed2 cat2 = Seller.RunOutcome.loggedError := by
    intro feed2 cat2 hn
    unfold Seller.main_run Seller.main_core
    rw [hn]
  have hnone := Seller.create_stocks_none feed cat r hfind hc hq
  exact ⟨hnone, hprop feed cat hnone, hprop⟩

/-- Witness for C8 at the single unparseable feed row. -/
theorem C8_error_propagation_witness :
    Seller.create_stocks [⟨"a", "xx", "p"⟩] ["a"] = none
    ∧ Seller.main_run [⟨"a", "xx", "p"⟩] ["a"] =
        Seller.RunOutcome.loggedError
    ∧ (∀ (feed2 : List FeedRow) (cat2 : List String),
        Seller.create_stocks feed2 cat2 = none →
        Seller.main_run feed2 cat2 = Seller.RunOutcome.loggedError) :=
  C8_error_propagation [⟨"a", "xx", "p"⟩] ["a"] ⟨"a", "xx", "p"⟩
    (by decide) (by decide) (by decide)

theorem divide_of_length_le {α : Type} (l : List α) (n : Nat) (hne : l ≠ [])
    (hle : l.length ≤ n + 1) : divide l (n + 1) = [l] := by
  cases l with
  | nil => exact absurd rfl hne
  | cons x xs =>
    simp only [divide, List.take_succ_cons, List.drop_succ_cons]
    have hxs : xs.length ≤ n := by
      simpa using hle
    rw [List.take_of_length_le hxs, List.drop_eq_nil_of_le hxs, divide_nil]

theorem chunkLens_zero (n : Nat) : chunkLens 0 n = [] := by
  cases n <;> simp [chunkLens]

/-- C9: in `seller.main`, the `offer_ids` list handed to `create_prices`
is the very list already consumed destructively by the preceding
`create_stocks` call (the embedding threads exactly that final list into
the price step), so on a duplicate-free catalog the `create_prices` call
returns the empty list and main submits no price-update batch at all. -/
theorem C9_seller_main_no_price_batches (feed : List FeedRow)
    (offer_ids : List String) (sb : List (List Seller.StockRecord))
    (pb : List (List Seller.PriceRecord)) (hnd : offer_ids.Nodup)
    (h : Seller.main_core feed offer_ids = some (sb, pb)) :
    pb = []
    ∧ (∀ (res : List Seller.StockRecord) (rem : List String),
        Seller.create_stocks feed offer_ids = some (res, rem) →
        (Seller.create_prices feed rem).1 = []) := by
  refine ⟨Seller.main_core_prices_empty feed offer_ids hnd sb pb h, ?_⟩
  intro res rem hcs
  obtain ⟨_, _, _, hrem⟩ :=
    Seller.create_stocks_some_struct feed offer_ids res rem hnd hcs
  apply Seller.create_prices_empty_of_uncovered
  intro r hr hmem
  rw [hrem] at hmem
  obtain ⟨_, hall⟩ := (mem_unmatchedIds_iff feed offer_ids _).mp hmem
  exact hall r hr rfl

/-- Witness for C9 at a one-row feed against the catalog
`["123", "789"]`. -/
theorem C9_seller_main_no_price_batches_witness :
    ([] : List (List Seller.PriceRecord)) = []
    ∧ (∀ (res : List Seller.StockRecord) (rem : List String),
        Seller.create_stocks [⟨"123", "5", "p"⟩] ["123", "789"] =
          some (res, rem) →
        (Seller.create_prices [⟨"123", "5", "p"⟩] rem).1 = []) :=
  C9_seller_main_no_price_batches [⟨"123", "5", "p"⟩] ["123", "789"]
    [[⟨"123", 5⟩, ⟨"789", 0⟩]] [] (by decide)
    (by
      unfold Seller.main_core
      rw [show Seller.create_stocks [⟨"123", "5", "p"⟩] ["123", "789"] =
          some ([⟨"123", 5⟩, ⟨"789", 0⟩], ["789"]) from by decide]
      show some (divide [(⟨"123", 5⟩ : Seller.StockRecord), ⟨"789", 0⟩] 100,
        divide (Seller.create_prices [⟨"123", "5", "p"⟩] ["789"]).1 900) = _
      rw [show (Seller.create_prices [⟨"123", "5", "p"⟩] ["789"]).1 = []
          from by decide]
      rw [divide_nil,
        show divide [(⟨"123", 5⟩ : Seller.StockRecord), ⟨"789", 0⟩] 100 =
          [[⟨"123", 5⟩, ⟨"789", 0⟩]]
        from divide_of_length_le _ 99 (by decide) (by decide)])

/-- C10: `market.main` evaluates `upload_prices(...)` at the FBS and DBS
steps without `await`; the coroutine objects are never scheduled, so no
request `market.main` issues is a price update — its trace is stock
updates only. -/
theorem C10_market_main_no_price_updates (feed : List FeedRow)
    (fbsCat dbsCat : List String) (cf cd wf wd date : String)
    (reqs : List Market.Request)
    (h : Market.main_requests feed fbsCat dbsCat cf cd wf wd date =
      some reqs) :
    ∀ req ∈ reqs, req.isPriceUpdate = false := by
  intro req hreq
  cases h1 : Market.create_stocks feed fbsCat wf date with
  | none =>
    unfold Market.main_requests at h
    rw [h1] at h
    simp at h
  | some p1 =>
    obtain ⟨s1, r1⟩ := p1
    cases h2 : Market.create_stocks feed dbsCat wd date with
    | none =>
      unfold Market.main_requests at h
      rw [h1, h2] at h
      simp at h
    | some p2 =>
      obtain ⟨s2, r2⟩ := p2
      have hre : ((divide s1 2000).map (Market.Request.stockUpdate cf)
          ++ (divide s2 2000).map (Market.Request.stockUpdate cd)) = reqs :=
        Option.some_inj.mp
          (by rw [← h]; unfold Market.main_requests; rw [h1, h2])
      subst hre
      rcases List.mem_append.mp hreq with hmem | hmem <;>
      · obtain ⟨b, _, rfl⟩ := List.mem_map.mp hmem
        rfl

/-- Witness for C10 at a one-row feed with one FBS offer and no DBS
offers. -/
theorem C10_market_main_no_price_updates_witness :
    (Market.Request.stockUpdate "f"
      [(⟨"123", "w1", [⟨5, "FIT", "d"⟩]⟩ : Market.StockRecord)]).isPriceUpdate
      = false :=
  C10_market_main_no_price_updates [⟨"123", "5", "p"⟩] ["123"] [] "f" "g"
    "w1" "w2" "d"
    [Market.Request.stockUpdate "f" [⟨"123", "w1", [⟨5, "FIT", "d"⟩]⟩]]
    (by
      unfold Market.main_requests
      rw [show Market.create_stocks [⟨"123", "5", "p"⟩] ["123"] "w1" "d" =
          some ([⟨"123", "w1", [⟨5, "FIT", "d"⟩]⟩], []) from by decide]
      rw [show Market.create_stocks [⟨"123", "5", "p"⟩] [] "w2" "d" =
          some ([], []) from by decide]
      show some (((divide [(⟨"123", "w1", [⟨5, "FIT", "d"⟩]⟩ :
            Market.StockRecord)] 2000).map (Market.Request.stockUpdate "f"))
          ++ ((divide ([] : List Market.StockRecord) 2000).map
            (Market.Request.stockUpdate "g"))) = _
      rw [divide_nil,
        show divide [(⟨"123", "w1", [⟨5, "FIT", "d"⟩]⟩ :
            Market.StockRecord)] 2000 = [[⟨"123", "w1", [⟨5, "FIT", "d"⟩]⟩]]
          from divide_of_length_le _ 1999 (by decide) (by decide)]
      rfl)
    (Market.Request.stockUpdate "f" [⟨"123", "w1", [⟨5, "FIT", "d"⟩]⟩])
    (by decide)

/-- C6 counterexample: `market.upload_prices` hands the Batcher chunk size
500 — not one of the claimed 100/900/1000/2000.  On a feed of 501 rows
for one catalog offer it produces batches of lengths [500, 1], a profile
none of the four claimed chunk sizes can produce. -/
theorem C6_counterexample :
    Market.upload_prices_batches
        (List.replicate 501 (⟨"a", "5", "5.p"⟩ : FeedRow)) ["a"] =
      some (divide (List.replicate 501
        (⟨"a", ⟨5, "RUR"⟩⟩ : Market.PriceRecord)) 500)
    ∧ (divide (List.replicate 501
        (⟨"a", ⟨5, "RUR"⟩⟩ : Market.PriceRecord)) 500).map List.length =
      [500, 1]
    ∧ (∀ n ∈ ([100, 900, 1000, 2000] : List Nat),
        (divide (List.replicate 501
          (⟨"a", ⟨5, "RUR"⟩⟩ : Market.PriceRecord)) n).map List.length ≠
        [500, 1]) := by
  have hne : List.replicate 501 (⟨"a", ⟨5, "RUR"⟩⟩ : Market.PriceRecord) ≠
      [] := by
    intro hx
    have hlen := congrArg List.length hx
    rw [List.length_replicate, List.length_nil] at hlen
    exact absurd hlen (by decide)
  refine ⟨?_, ?_, ?_⟩
  · unfold Market.upload_prices_batches
    rw [show Market.create_prices
          (List.replicate 501 (⟨"a", "5", "5.p"⟩ : FeedRow)) ["a"] =
        some (List.replicate 501 (⟨"a", ⟨5, "RUR"⟩⟩ : Market.PriceRecord),
          ["a"])
      from Market.create_prices_loop_replicate _ _ 5 (by decide) (by decide)
        501]
    rfl
  · have hcl1 : chunkLens 501 500 = 500 :: chunkLens 1 500 := by
      show chunkLens (500 + 1) (499 + 1) = _
      simp only [chunkLens]
      norm_num
    have hcl2 : chunkLens 1 500 = [1] := by
      show chunkLens (0 + 1) (499 + 1) = _
      simp only [chunkLens]
      rw [show (0 + 1 - (499 + 1) : Nat) = 0 from by norm_num, chunkLens_zero]
      norm_num
    have hm := divide_map_length
      (List.replicate 501 (⟨"a", ⟨5, "RUR"⟩⟩ : Market.PriceRecord)) 499
    rw [List.length_replicate] at hm
    calc (divide (List.replicate 501
          (⟨"a", ⟨5, "RUR"⟩⟩ : Market.PriceRecord)) 500).map List.length
        = chunkLens 501 500 := hm
      _ = [500, 1] := by rw [hcl1, hcl2]
  · intro n hn
    have hn4 : n = 100 ∨ n = 900 ∨ n = 1000 ∨ n = 2000 := by
      simpa using hn
    rcases hn4 with rfl | rfl | rfl | rfl
    · intro heq
      have h500 : (500 : Nat) ∈ (divide (List.replicate 501
          (⟨"a", ⟨5, "RUR"⟩⟩ : Market.PriceRecord)) 100).map List.length := by
        rw [heq]
        simp
      obtain ⟨c, hc, hlen⟩ := List.mem_map.mp h500
      have hle := divide_chunk_length_le _ 100 c hc
      omega
    · have hd : divide (List.replicate 501
          (⟨"a", ⟨5, "RUR"⟩⟩ : Market.PriceRecord)) 900 =
          [List.replicate 501 (⟨"a", ⟨5, "RUR"⟩⟩ : Market.PriceRecord)] :=
        divide_of_length_le _ 899 hne
          (by rw [List.length_replicate]; norm_num)
      rw [hd]
      simp only [List.map_cons, List.map_nil, List.length_replicate]
      decide
    · have hd : divide (List.replicate 501
          (⟨"a", ⟨5, "RUR"⟩⟩ : Market.PriceRecord)) 1000 =
          [List.replicate 501 (⟨"a", ⟨5, "RUR"⟩⟩ : Market.PriceRecord)] :=
        divide_of_length_le _ 999 hne
          (by rw [List.length_replicate]; norm_num)
      rw [hd]
      simp only [List.map_cons, List.map_nil, List.length_replicate]
      decide
    · have hd : divide (List.replicate 501
          (⟨"a", ⟨5, "RUR"⟩⟩ : Market.PriceRecord)) 2000 =
          [List.replicate 501 (⟨"a", ⟨5, "RUR"⟩⟩ : Market.PriceRecord)] :=
        divide_of_length_le _ 1999 hne
          (by rw [List.length_replicate]; norm_num)
      rw [hd]
      simp only [List.map_cons, List.map_nil, List.length_replicate]
      decide

/-- C6 (amended): every orchestration path batches with a fixed chunk size
from {100, 500, 900, 1000, 2000} — Ozon: 100 for stocks and 900 (main) /
1000 (upload_prices) for prices; Yandex: 2000 for stocks and 500 for
prices — so every submitted batch holds at most that many records. -/
theorem C6_batch_size_limits :
    (∀ (feed : List FeedRow) (ids : List String)
        (sb : List (List Seller.StockRecord))
        (pb : List (List Seller.PriceRecord)),
        Seller.main_core feed ids = some (sb, pb) →
        (∀ b ∈ sb, b.length ≤ 100) ∧ (∀ b ∈ pb, b.length ≤ 900))
    ∧ (∀ (feed : List FeedRow) (ids : List String)
        (bs : List (List Seller.StockRecord)),
        Seller.upload_stocks_batches feed ids = some bs →
        ∀ b ∈ bs, b.length ≤ 100)
    ∧ (∀ (feed : List FeedRow) (ids : List String)
        (b : List Seller.PriceRecord),
        b ∈ Seller.upload_prices_batches feed ids → b.length ≤ 1000)
    ∧ (∀ (feed : List FeedRow) (ids : List String) (wh date : String)
        (bs : List (List Market.StockRecord)),
        Market.upload_stocks_batches feed ids wh date = some bs →
        ∀ b ∈ bs, b.length ≤ 2000)
    ∧ (∀ (feed : List FeedRow) (ids : List String)
        (bs : List (List Market.PriceRecord)),
        Market.upload_prices_batches feed ids = some bs →
        ∀ b ∈ bs, b.length ≤ 500) := by
  refine ⟨?_, ?_, ?_, ?_, ?_⟩
  · intro feed ids sb pb h
    cases hcs : Seller.create_stocks feed ids with
    | none =>
      unfold Seller.main_core at h
      rw [hcs] at h
      simp at h
    | some p =>
      obtain ⟨stocks, rem⟩ := p
      have h2 : (some (divide stocks 100,
          divide ((Seller.create_prices feed rem).1) 900) :
          Option (List (List Seller.StockRecord) ×
            List (List Seller.PriceRecord))) = some (sb, pb) := by
        rw [← h]
        unfold Seller.main_core
        rw [hcs]
      have h3 := Option.some_inj.mp h2
      have hsb : divide stocks 100 = sb := congrArg Prod.fst h3
      have hpb : divide ((Seller.create_prices feed rem).1) 900 = pb :=
        congrArg Prod.snd h3
      constructor
      · intro b hb
        exact divide_chunk_length_le stocks 100 b (hsb ▸ hb)
      · intro b hb
        exact divide_chunk_length_le _ 900 b (hpb ▸ hb)
  · intro feed ids bs h
    cases hcs : Seller.create_stocks feed ids with
    | none =>
      unfold Seller.upload_stocks_batches at h
      rw [hcs] at h
      simp at h
    | some p =>
      have h2 : some (divide p.1 100) = some bs := by
        rw [← h]
        unfold Seller.upload_stocks_batches
        rw [hcs]
        rfl
      intro b hb
      exact divide_chunk_length_le p.1 100 b
        ((Option.some_inj.mp h2) ▸ hb)
  · intro feed ids b hb
    exact divide_chunk_length_le _ 1000 b hb
  · intro feed ids wh date bs h
    cases hcs : Market.create_stocks feed ids wh date with
    | none =>
      unfold Market.upload_stocks_batches at h
      rw [hcs] at h
      simp at h
    | some p =>
      have h2 : some (divide p.1 2000) = some bs := by
        rw [← h]
        unfold Market.upload_stocks_batches
        rw [hcs]
        rfl
      intro b hb
      exact divide_chunk_length_le p.1 2000 b
        ((Option.some_inj.mp h2) ▸ hb)
  · intro feed ids bs h
    cases hcs : Market.create_prices feed ids with
    | none =>
      unfold Market.upload_prices_batches at h
      rw [hcs] at h
      simp at h
    | some p =>
      have h2 : some (divide p.1 500) = some bs := by
        rw [← h]
        unfold Market.upload_prices_batches
        rw [hcs]
        rfl
      intro b hb
      exact divide_chunk_length_le p.1 500 b
        ((Option.some_inj.mp h2) ▸ hb)

/-- Witness for C6 at a one-record stock upload on the Ozon side. -/
theorem C6_batch_size_limits_witness :
    ∀ b ∈ ([[(⟨"1", 5⟩ : Seller.StockRecord)]] :
        List (List Seller.StockRecord)), b.length ≤ 100 :=
  C6_batch_size_limits.2.1 [⟨"1", "5", "p"⟩] ["1"] [[⟨"1", 5⟩]]
    (by
      unfold Seller.upload_stocks_batches
      rw [show Seller.create_stocks [⟨"1", "5", "p"⟩] ["1"] =
          some ([⟨"1", 5⟩], []) from by decide]
      show some (divide [(⟨"1", 5⟩ : Seller.StockRecord)] 100) = _
      rw [show divide [(⟨"1", 5⟩ : Seller.StockRecord)] 100 = [[⟨"1", 5⟩]]
        from divide_of_length_le _ 99 (by decide) (by decide)])
